import Mathlib

/-!
Shallow embedding of `src/match_slots.py` (nenufar_scheduler).

Timestamps are modelled as integers: seconds since an epoch. A calendar day
is 86400 seconds; pandas `Timestamp.hour` / `.minute` correspond to
`t % 86400 / 3600` and `t % 86400 % 3600 / 60` (Lean's `Int` `%` is `emod`,
which for a positive modulus agrees with Python's floor-mod, so the calendar
fields of pre-epoch timestamps are handled the same way pandas handles them).
`pd.Timedelta(days=d)` is `d * 86400` seconds, `hour_tolerance` hours are
`hourTol * 3600` seconds; the float comparison
`abs(seconds)/3600 <= hour_tolerance` in the source is equivalent, for an
integer tolerance, to the integer comparison `|seconds| ≤ hourTol * 3600`.

DataFrames become lists: the plan is a `List Observation` in row order, the
slot table a `List Slot` whose (pandas RangeIndex) labels are the positions
`0, 1, …` delivered by `List.enum`.  The generic column behaviour of
`Series.to_dict()` / `dict.update` (lines 77–87 of the source) is modelled
separately over association lists with `Option`-valued cells, `none` being
Python's `None`.
-/

namespace MatchSlots

/-- A plan row: `StartTime`, `StopTime` as absolute timestamps in seconds. -/
structure Observation where
  StartTime : Int
  StopTime : Int
deriving Repr, DecidableEq

/-- A slot row: `startTime`, `stopTime` as absolute timestamps in seconds. -/
structure Slot where
  startTime : Int
  stopTime : Int
deriving Repr, DecidableEq

/-- One output row of `cross_match_observations`: the observation's fields,
plus the assigned slot's index and fields, both `none` when unmatched. -/
structure MatchRec where
  obs : Observation
  slotIdx : Option Nat
  slot : Option Slot
deriving Repr, DecidableEq

/-- Midnight preceding `t` (the timestamp's date, as pandas `normalize`). -/
def dayStart (t : Int) : Int := t - t % 86400

/-- The `Timestamp.hour` field of a timestamp in seconds. -/
def hour (t : Int) : Int := t % 86400 / 3600

/-- The `Timestamp.minute` field of a timestamp in seconds. -/
def minute (t : Int) : Int := t % 86400 % 3600 / 60

/-- The quantity `timedelta(hours=t.hour, minutes=t.minute)` from lines 56–59, in
seconds: the time-of-day, hour and minute components only. -/
def todSeconds (t : Int) : Int := hour t * 3600 + minute t * 60

/-- Lines 43–49: the slot's `startTime` and `stopTime` against the window
`[obs.StartTime - day_tolerance days, obs.StopTime + day_tolerance days]`. -/
def calendarOk (dayTol : Nat) (o : Observation) (s : Slot) : Bool :=
  decide (o.StartTime - dayTol * 86400 ≤ s.startTime) &&
  decide (s.stopTime ≤ o.StopTime + dayTol * 86400)

/-- Lines 56–64: `start_time_difference <= hour_tolerance or
end_time_difference <= hour_tolerance`, scaled to integer seconds. -/
def hourOk (hourTol : Nat) (o : Observation) (s : Slot) : Bool :=
  decide ((todSeconds o.StartTime - todSeconds s.startTime).natAbs ≤ hourTol * 3600) ||
  decide ((todSeconds o.StopTime - todSeconds s.stopTime).natAbs ≤ hourTol * 3600)

/-- Lines 47–51: `potential_slots` — the date-range filter followed by the
exclusion of already used slot indices. -/
def calendarCandidates (slots : List Slot) (used : List Nat) (dayTol : Nat)
    (o : Observation) : List (Nat × Slot) :=
  (slots.enum.filter fun p => calendarOk dayTol o p.2).filter fun p => !(used.contains p.1)

/-- Lines 54–65: `filtered_slots` — the time-of-day filter over
`potential_slots`. -/
def filteredCandidates (slots : List Slot) (used : List Nat) (hourTol dayTol : Nat)
    (o : Observation) : List (Nat × Slot) :=
  (calendarCandidates slots used dayTol o).filter fun p => hourOk hourTol o p.2

/-- Line 70–72: `abs((slot.startTime - obs.StartTime).total_seconds())`. -/
def timeDiff (o : Observation) (p : Nat × Slot) : Nat :=
  (p.2.startTime - o.StartTime).natAbs

/-- Lines 73–74: `idxmin` over the filtered candidates — the first candidate
attaining the minimal `time_diff`, scanned in slot-table order. -/
def pickBest (o : Observation) : List (Nat × Slot) → Option (Nat × Slot)
  | [] => none
  | c :: cs =>
    some (cs.foldl (fun best c' => if timeDiff o c' < timeDiff o best then c' else best) c)

/-- Lines 41–88: the per-observation loop of `cross_match_observations`,
threading the `used_slots` set (modelled as the list of indices added so
far). -/
def matchLoop (slots : List Slot) (hourTol dayTol : Nat) :
    List Observation → List Nat → List MatchRec
  | [], _ => []
  | o :: os, used =>
    match pickBest o (filteredCandidates slots used hourTol dayTol o) with
    | some (i, s) => ⟨o, some i, some s⟩ :: matchLoop slots hourTol dayTol os (i :: used)
    | none => ⟨o, none, none⟩ :: matchLoop slots hourTol dayTol os used

/-- The function `cross_match_observations(plan_df, slots_df, hour_tolerance, day_tolerance)`
(defaults in the source: `hour_tolerance=2`, `day_tolerance=3`). -/
def cross_match_observations (plan : List Observation) (slots : List Slot)
    (hourTol dayTol : Nat) : List MatchRec :=
  matchLoop slots hourTol dayTol plan []

/-- The call `t.replace(hour=h, minute=m)`: keep the date and the seconds component,
substitute hour and minute (line 115/117/119). -/
def replaceHM (t h m : Int) : Int :=
  dayStart t + h * 3600 + m * 60 + t % 86400 % 60

/-- Line 115: `slot_start.replace(hour=plan_start_hour, minute=plan_start_minute)`. -/
def candidateStart (obsStart slotStart : Int) : Int :=
  replaceHM slotStart (hour obsStart) (minute obsStart)

/-- Line 116: the midnight-rollover test
`plan_end_hour < plan_start_hour or (plan_end_hour == 0 and plan_start_hour != 0)`. -/
def rolloverB (obsStart obsStop : Int) : Bool :=
  decide (hour obsStop < hour obsStart) ||
  (decide (hour obsStop = 0) && decide (hour obsStart ≠ 0))

/-- Lines 116–119: the candidate actual end, on the next day when the
rollover test fires. -/
def candidateEnd (obsStart obsStop slotStart : Int) : Int :=
  if rolloverB obsStart obsStop then
    replaceHM (slotStart + 86400) (hour obsStop) (minute obsStop)
  else
    replaceHM slotStart (hour obsStop) (minute obsStop)

/-- One output row of `adjust_observational_times`: the input record with
the two computed fields appended. -/
structure AdjustedRec where
  base : MatchRec
  ActualStartTime : Option Int
  ActualEndTime : Option Int
deriving Repr, DecidableEq

/-- Lines 114–132: the per-record body of `adjust_observational_times` —
clamping (lines 121–122) and the validity test (lines 124–129); unmatched
records (`slot_start`/`slot_end` null) get both fields null. -/
def adjustFields (r : MatchRec) : Option Int × Option Int :=
  match r.slot with
  | some s =>
    let aStart := max (candidateStart r.obs.StartTime s.startTime) s.startTime
    let aEnd := min (candidateEnd r.obs.StartTime r.obs.StopTime s.startTime) s.stopTime
    if aStart < aEnd then (some aStart, some aEnd) else (none, none)
  | none => (none, none)

/-- Lines 102–136: `adjust_observational_times(matches_df)` — one output row
per input row, in order, appending `ActualStartTime` / `ActualEndTime`. -/
def adjust_observational_times (rs : List MatchRec) : List AdjustedRec :=
  rs.map fun r => ⟨r, (adjustFields r).1, (adjustFields r).2⟩

/-- Lines 77–78: `match = obs.to_dict(); match.update(best_slot.to_dict())`
over association-list rows — shared keys take the updating row's value in
place, new keys are appended in the updating row's order. -/
def dictUpdate {α : Type} (d u : List (String × α)) : List (String × α) :=
  (d.map fun kv =>
    match u.lookup kv.1 with
    | some v => (kv.1, v)
    | none => kv) ++
  u.filter fun kv => (d.lookup kv.1).isNone

/-- Lines 83–87: the unmatched row — the observation's cells, then every
slot column whose name is not already a key, added with value `None`. -/
def unmatchedRow {α : Type} (obsRow : List (String × Option α)) (slotCols : List String) :
    List (String × Option α) :=
  obsRow ++ (slotCols.filter fun c => (obsRow.lookup c).isNone).map fun c => (c, none)

/-! ### Helper lemmas -/

lemma matchLoop_map_obs (slots : List Slot) (hourTol dayTol : Nat) :
    ∀ (os : List Observation) (used : List Nat),
      (matchLoop slots hourTol dayTol os used).map (fun r => r.obs) = os := by
  intro os
  induction os with
  | nil => intro used; rfl
  | cons o os ih =>
    intro used
    cases hpb : pickBest o (filteredCandidates slots used hourTol dayTol o) with
    | none => simp [matchLoop, hpb, ih]
    | some c =>
      obtain ⟨i, s⟩ := c
      simp [matchLoop, hpb, ih]

/-- The accumulator-passing scan of `idxmin` returns an element of the list. -/
lemma foldBest_mem (o : Observation) :
    ∀ (cs : List (Nat × Slot)) (b : Nat × Slot),
      cs.foldl (fun best c' => if timeDiff o c' < timeDiff o best then c' else best) b ∈
        b :: cs := by
  intro cs
  induction cs with
  | nil => intro b; simp
  | cons c cs ih =>
    intro b
    rw [List.foldl_cons]
    by_cases hc : timeDiff o c < timeDiff o b
    · rw [if_pos hc]
      exact List.mem_cons_of_mem b (ih c)
    · rw [if_neg hc]
      rcases List.mem_cons.mp (ih b) with h1 | h2
      · rw [h1]
        exact List.mem_cons_self b _
      · exact List.mem_cons_of_mem b (List.mem_cons_of_mem c h2)

/-- The scan of `idxmin` attains the minimal `time_diff`. -/
lemma foldBest_min (o : Observation) :
    ∀ (cs : List (Nat × Slot)) (b : Nat × Slot), ∀ x ∈ b :: cs,
      timeDiff o (cs.foldl (fun best c' => if timeDiff o c' < timeDiff o best then c' else best) b) ≤
        timeDiff o x := by
  intro cs
  induction cs with
  | nil =>
    intro b x hx
    rw [List.mem_singleton.mp hx]
    exact le_refl _
  | cons c cs ih =>
    intro b x hx
    rw [List.foldl_cons]
    have hb' := ih (if timeDiff o c < timeDiff o b then c else b)
    have hstep_b : timeDiff o (if timeDiff o c < timeDiff o b then c else b) ≤ timeDiff o b := by
      by_cases hc : timeDiff o c < timeDiff o b
      · rw [if_pos hc]; omega
      · rw [if_neg hc]
    have hstep_c : timeDiff o (if timeDiff o c < timeDiff o b then c else b) ≤ timeDiff o c := by
      by_cases hc : timeDiff o c < timeDiff o b
      · rw [if_pos hc]
      · rw [if_neg hc]; omega
    have hhead := hb' _ (List.mem_cons_self _ _)
    rcases List.mem_cons.mp hx with h1 | h2
    · rw [h1]; exact le_trans hhead hstep_b
    · rcases List.mem_cons.mp h2 with h3 | h4
      · rw [h3]; exact le_trans hhead hstep_c
      · exact hb' x (List.mem_cons_of_mem _ h4)

/-- On ties the scan of `idxmin` keeps the earliest occurrence: over a list
whose first components strictly increase, any element attaining the minimum
has an index no smaller than the result's. -/
lemma foldBest_first (o : Observation) :
    ∀ (cs : List (Nat × Slot)) (b : Nat × Slot),
      List.Pairwise (fun p q : Nat × Slot => p.1 < q.1) (b :: cs) →
      ∀ x ∈ b :: cs,
        timeDiff o x =
          timeDiff o (cs.foldl (fun best c' => if timeDiff o c' < timeDiff o best then c' else best) b) →
        (cs.foldl (fun best c' => if timeDiff o c' < timeDiff o best then c' else best) b).1 ≤ x.1 := by
  intro cs
  induction cs with
  | nil =>
    intro b _ x hx _
    rw [List.mem_singleton.mp hx]
    exact le_refl _
  | cons c cs ih =>
    intro b hp x hx heq
    rw [List.foldl_cons] at heq ⊢
    rw [List.pairwise_cons] at hp
    obtain ⟨hbhd, hptl⟩ := hp
    rw [List.pairwise_cons] at hptl
    obtain ⟨hchd, hpcs⟩ := hptl
    by_cases hc : timeDiff o c < timeDiff o b
    · rw [if_pos hc] at heq ⊢
      have hp' : List.Pairwise (fun p q : Nat × Slot => p.1 < q.1) (c :: cs) :=
        List.pairwise_cons.mpr ⟨hchd, hpcs⟩
      have hminc := foldBest_min o cs c _ (List.mem_cons_self _ _)
      rcases List.mem_cons.mp hx with h1 | h2
      · exfalso
        rw [h1] at heq
        omega
      · exact ih c hp' x h2 heq
    · rw [if_neg hc] at heq ⊢
      have hp' : List.Pairwise (fun p q : Nat × Slot => p.1 < q.1) (b :: cs) :=
        List.pairwise_cons.mpr ⟨fun y hy => hbhd y (List.mem_cons_of_mem c hy), hpcs⟩
      rcases List.mem_cons.mp hx with h1 | h2
      · rw [h1] at heq ⊢
        exact ih b hp' b (List.mem_cons_self _ _) heq
      · rcases List.mem_cons.mp h2 with h3 | h4
        · rw [h3]
          have hminb := foldBest_min o cs b _ (List.mem_cons_self _ _)
          have hbr : timeDiff o b =
              timeDiff o (cs.foldl (fun best c' =>
                if timeDiff o c' < timeDiff o best then c' else best) b) := by
            rw [h3] at heq
            omega
          have := ih b hp' b (List.mem_cons_self _ _) hbr
          have hbc := hbhd c (List.mem_cons_self _ _)
          omega
        · exact ih b hp' x (List.mem_cons_of_mem _ h4) heq

lemma pickBest_mem (o : Observation) (cs : List (Nat × Slot)) (c : Nat × Slot)
    (h : pickBest o cs = some c) : c ∈ cs := by
  cases cs with
  | nil => simp [pickBest] at h
  | cons b cs =>
    simp only [pickBest, Option.some.injEq] at h
    rw [← h]
    exact foldBest_mem o cs b

lemma enum_pairwise (l : List Slot) :
    List.Pairwise (fun p q : Nat × Slot => p.1 < q.1) l.enum := by
  have h : List.Pairwise (· < ·) (l.enum.map Prod.fst) := by
    rw [List.enum_map_fst]
    exact List.pairwise_lt_range _
  exact List.pairwise_map.mp h

lemma filteredCandidates_pairwise (slots : List Slot) (used : List Nat)
    (hourTol dayTol : Nat) (o : Observation) :
    List.Pairwise (fun p q : Nat × Slot => p.1 < q.1)
      (filteredCandidates slots used hourTol dayTol o) := by
  unfold filteredCandidates calendarCandidates
  exact (((enum_pairwise slots).filter _).filter _).filter _

lemma mem_filteredCandidates_not_used (slots : List Slot) (used : List Nat)
    (hourTol dayTol : Nat) (o : Observation) (i : Nat) (s : Slot)
    (h : (i, s) ∈ filteredCandidates slots used hourTol dayTol o) : i ∉ used := by
  unfold filteredCandidates calendarCandidates at h
  simp only [List.mem_filter, Bool.not_eq_true'] at h
  have := h.1.2
  simp at this
  exact this

lemma lookup_append_left {α β : Type} [BEq α] (l₁ l₂ : List (α × β)) (a : α) (b : β)
    (h : l₁.lookup a = some b) : (l₁ ++ l₂).lookup a = some b := by
  induction l₁ with
  | nil => simp [List.lookup] at h
  | cons kv l ih =>
    obtain ⟨k, v⟩ := kv
    rw [List.cons_append]
    rw [List.lookup] at h ⊢
    cases hk : a == k with
    | true => rw [hk] at h; simpa using h
    | false =>
      rw [hk] at h
      simp only [] at h ⊢
      exact ih h

lemma lookup_map_update {α : Type} (d u : List (String × α)) (c : String) (w : α)
    (hd : (d.lookup c).isSome) (hu : u.lookup c = some w) :
    ((d.map fun kv =>
        match u.lookup kv.1 with
        | some v => (kv.1, v)
        | none => kv).lookup c) = some w := by
  induction d with
  | nil => simp [List.lookup] at hd
  | cons kv d ih =>
    obtain ⟨k, v⟩ := kv
    by_cases hk : k = c
    · subst hk
      simp [List.map_cons, hu, List.lookup]
    · rw [List.lookup] at hd
      have hkc : (c == k) = false := by
        simpa using fun he => hk he.symm
      rw [hkc] at hd
      simp only [] at hd
      cases hul : u.lookup k with
      | none =>
        simp only [List.map_cons, hul, List.lookup, hkc]
        exact ih hd
      | some v' =>
        simp only [List.map_cons, hul, List.lookup, hkc]
        exact ih hd

/-- Applying `pickBest` to a non-empty candidate list in slot-table order returns a
candidate of minimal `time_diff`; on ties, the one with the smallest slot
index. -/
lemma pickBest_spec (o : Observation) (cs : List (Nat × Slot)) (hne : cs ≠ [])
    (hp : List.Pairwise (fun p q : Nat × Slot => p.1 < q.1) cs) :
    ∃ c, pickBest o cs = some c ∧ c ∈ cs ∧
      (∀ x ∈ cs, timeDiff o c ≤ timeDiff o x) ∧
      (∀ x ∈ cs, timeDiff o x = timeDiff o c → c.1 ≤ x.1) := by
  cases cs with
  | nil => exact absurd rfl hne
  | cons b cs =>
    exact ⟨_, rfl, foldBest_mem o cs b, foldBest_min o cs b, foldBest_first o cs b hp⟩

lemma matchLoop_assigned (slots : List Slot) (hourTol dayTol : Nat) :
    ∀ (os : List Observation) (used : List Nat),
      ((matchLoop slots hourTol dayTol os used).filterMap (fun r => r.slotIdx)).Nodup ∧
      ∀ i ∈ (matchLoop slots hourTol dayTol os used).filterMap (fun r => r.slotIdx),
        i ∉ used := by
  intro os
  induction os with
  | nil => intro used; simp [matchLoop]
  | cons o os ih =>
    intro used
    cases hpb : pickBest o (filteredCandidates slots used hourTol dayTol o) with
    | none =>
      have h := ih used
      constructor
      · simpa [matchLoop, hpb, List.filterMap_cons] using h.1
      · intro i hi
        rw [show matchLoop slots hourTol dayTol (o :: os) used =
            ⟨o, none, none⟩ :: matchLoop slots hourTol dayTol os used by
          simp [matchLoop, hpb]] at hi
        rw [List.filterMap_cons] at hi
        exact h.2 i hi
    | some c =>
      obtain ⟨i, s⟩ := c
      have hmem : (i, s) ∈ filteredCandidates slots used hourTol dayTol o :=
        pickBest_mem o _ _ hpb
      have hni : i ∉ used :=
        mem_filteredCandidates_not_used slots used hourTol dayTol o i s hmem
      have ih' := ih (i :: used)
      have hloop : matchLoop slots hourTol dayTol (o :: os) used =
          ⟨o, some i, some s⟩ :: matchLoop slots hourTol dayTol os (i :: used) := by
        simp [matchLoop, hpb]
      constructor
      · rw [hloop, List.filterMap_cons]
        simp only [List.nodup_cons]
        refine ⟨fun hmemi => ?_, ih'.1⟩
        exact (ih'.2 i hmemi) (List.mem_cons_self _ _)
      · intro j hj
        rw [hloop, List.filterMap_cons] at hj
        simp only [List.mem_cons] at hj
        rcases hj with rfl | hj
        · exact hni
        · intro hju
          exact (ih'.2 j hj) (List.mem_cons_of_mem _ hju)

/-! ### Claims -/

/-- C2. Order preservation and totality: `cross_match_observations` returns
exactly one Match Record per observation, in the original plan-row order, so
the output record count equals the plan row count — whether or not the
observations are matched. -/
theorem order_preservation (plan : List Observation) (slots : List Slot)
    (hourTol dayTol : Nat) :
    (cross_match_observations plan slots hourTol dayTol).map (fun r => r.obs) = plan ∧
    (cross_match_observations plan slots hourTol dayTol).length = plan.length := by
  have h : (cross_match_observations plan slots hourTol dayTol).map (fun r => r.obs) = plan :=
    matchLoop_map_obs slots hourTol dayTol plan []
  refine ⟨h, ?_⟩
  have h2 : ((cross_match_observations plan slots hourTol dayTol).map (fun r => r.obs)).length =
      plan.length := by rw [h]
  simpa using h2

/-- C6. An observation whose filtered candidate set is empty yields a Match
Record carrying the observation with the slot index and all slot fields
null (`none`), and the run continues — no error, no missing field (the
record type is the same for matched and unmatched rows). -/
theorem unmatched_never_fails (slots : List Slot) (hourTol dayTol : Nat)
    (o : Observation) (os : List Observation) (used : List Nat)
    (h : filteredCandidates slots used hourTol dayTol o = []) :
    matchLoop slots hourTol dayTol (o :: os) used =
      ⟨o, none, none⟩ :: matchLoop slots hourTol dayTol os used := by
  simp [matchLoop, h, pickBest]

theorem unmatched_never_fails_witness :
    filteredCandidates [] [] 2 3 ⟨0, 0⟩ = [] ∧
    matchLoop [] 2 3 [⟨0, 0⟩] [] = [⟨⟨0, 0⟩, none, none⟩] := by
  refine ⟨rfl, ?_⟩
  have h := unmatched_never_fails [] 2 3 ⟨0, 0⟩ [] [] rfl
  simpa [matchLoop] using h

/-- C9. Adjuster frame condition: `adjust_observational_times` returns one
record per input record, in order, each equal to its input on every field
with only `ActualStartTime` and `ActualEndTime` appended, and both appended
fields are null whenever the record's slot assignment is null. -/
theorem adjuster_frame (rs : List MatchRec) :
    (adjust_observational_times rs).map (fun a => a.base) = rs ∧
    ∀ a ∈ adjust_observational_times rs, a.base.slot = none →
      a.ActualStartTime = none ∧ a.ActualEndTime = none := by
  constructor
  · induction rs with
    | nil => rfl
    | cons r rs ih =>
      simp only [adjust_observational_times, List.map_cons] at ih ⊢
      rw [ih]
  · intro a ha hnull
    simp only [adjust_observational_times, List.mem_map] at ha
    obtain ⟨r, _, rfl⟩ := ha
    simp only [] at hnull ⊢
    simp [adjustFields, hnull]

theorem adjuster_frame_witness :
    (⟨⟨⟨0, 0⟩, none, none⟩, none, none⟩ : AdjustedRec).ActualStartTime = none ∧
    (⟨⟨⟨0, 0⟩, none, none⟩, none, none⟩ : AdjustedRec).ActualEndTime = none :=
  (adjuster_frame [⟨⟨0, 0⟩, none, none⟩]).2 ⟨⟨⟨0, 0⟩, none, none⟩, none, none⟩
    (by simp [adjust_observational_times, adjustFields]) rfl

/-- C1. Slot exclusivity: over a full run of the matcher no slot index is
assigned to more than one Match Record (the assigned indices form a
duplicate-free list), and a slot already in the used set is never a
candidate for a later observation. -/
theorem slot_exclusivity (plan : List Observation) (slots : List Slot)
    (hourTol dayTol : Nat) :
    ((cross_match_observations plan slots hourTol dayTol).filterMap
      (fun r => r.slotIdx)).Nodup ∧
    ∀ (used : List Nat) (o : Observation) (i : Nat) (s : Slot),
      (i, s) ∈ filteredCandidates slots used hourTol dayTol o → i ∉ used :=
  ⟨(matchLoop_assigned slots hourTol dayTol plan []).1,
   fun used o i s h => mem_filteredCandidates_not_used slots used hourTol dayTol o i s h⟩

theorem slot_exclusivity_witness :
    ((cross_match_observations [⟨0, 0⟩] [⟨0, 0⟩] 2 3).filterMap
      (fun r => r.slotIdx)).Nodup ∧
    (0 : Nat) ∉ [5] :=
  ⟨(slot_exclusivity [⟨0, 0⟩] [⟨0, 0⟩] 2 3).1,
   (slot_exclusivity [⟨0, 0⟩] [⟨0, 0⟩] 2 3).2 [5] ⟨0, 0⟩ 0 ⟨0, 0⟩ (by decide)⟩

/-- C5. Best-fit selection with stable tie-break: whenever the filtered
candidate set of an observation is non-empty, the assigned slot minimizes
the full-timestamp difference `|slot.startTime - obs.StartTime|`, among
equal minimizers the smallest slot-table index wins (candidates carry
strictly increasing indices, so smallest index = earliest in slot order),
and the matcher commits exactly that slot for the observation. -/
theorem best_fit (slots : List Slot) (used : List Nat) (hourTol dayTol : Nat)
    (o : Observation) (os : List Observation)
    (h : filteredCandidates slots used hourTol dayTol o ≠ []) :
    ∃ i s,
      pickBest o (filteredCandidates slots used hourTol dayTol o) = some (i, s) ∧
      (i, s) ∈ filteredCandidates slots used hourTol dayTol o ∧
      (∀ j t, (j, t) ∈ filteredCandidates slots used hourTol dayTol o →
        (s.startTime - o.StartTime).natAbs ≤ (t.startTime - o.StartTime).natAbs) ∧
      (∀ j t, (j, t) ∈ filteredCandidates slots used hourTol dayTol o →
        (t.startTime - o.StartTime).natAbs = (s.startTime - o.StartTime).natAbs → i ≤ j) ∧
      matchLoop slots hourTol dayTol (o :: os) used =
        ⟨o, some i, some s⟩ :: matchLoop slots hourTol dayTol os (i :: used) := by
  obtain ⟨c, hpb, hmem, hmin, htie⟩ :=
    pickBest_spec o _ h (filteredCandidates_pairwise slots used hourTol dayTol o)
  obtain ⟨i, s⟩ := c
  refine ⟨i, s, hpb, hmem, ?_, ?_, ?_⟩
  · intro j t hjt
    exact hmin (j, t) hjt
  · intro j t hjt heq
    exact htie (j, t) hjt heq
  · simp [matchLoop, hpb]

theorem best_fit_witness :
    filteredCandidates [⟨0, 0⟩] [] 2 3 ⟨0, 0⟩ ≠ [] ∧
    ∃ i s,
      pickBest ⟨0, 0⟩ (filteredCandidates [⟨0, 0⟩] [] 2 3 ⟨0, 0⟩) = some (i, s) ∧
      (i, s) ∈ filteredCandidates [⟨0, 0⟩] [] 2 3 ⟨0, 0⟩ ∧
      (∀ j t, (j, t) ∈ filteredCandidates [⟨0, 0⟩] [] 2 3 ⟨0, 0⟩ →
        (s.startTime - (⟨0, 0⟩ : Observation).StartTime).natAbs ≤
          (t.startTime - (⟨0, 0⟩ : Observation).StartTime).natAbs) ∧
      (∀ j t, (j, t) ∈ filteredCandidates [⟨0, 0⟩] [] 2 3 ⟨0, 0⟩ →
        (t.startTime - (⟨0, 0⟩ : Observation).StartTime).natAbs =
          (s.startTime - (⟨0, 0⟩ : Observation).StartTime).natAbs → i ≤ j) ∧
      matchLoop [⟨0, 0⟩] 2 3 [⟨0, 0⟩] [] =
        ⟨⟨0, 0⟩, some i, some s⟩ :: matchLoop [⟨0, 0⟩] 2 3 [] [i] :=
  ⟨by decide, best_fit [⟨0, 0⟩] [] 2 3 ⟨0, 0⟩ [] (by decide)⟩

/-- C3. Calendar filter: given the slot precondition `startTime ≤ stopTime`,
a pair `(i, s)` is a calendar candidate of `o` exactly when slot `i` of the
table is `s`, `i` is not yet used, and both `s.startTime` and `s.stopTime`
lie within `[o.StartTime - day_tolerance days, o.StopTime + day_tolerance days]`. -/
theorem calendar_filter (slots : List Slot) (used : List Nat) (dayTol : Nat)
    (o : Observation) (i : Nat) (s : Slot) (hs : s.startTime ≤ s.stopTime) :
    (i, s) ∈ calendarCandidates slots used dayTol o ↔
      ((i, s) ∈ slots.enum ∧ i ∉ used ∧
        o.StartTime - dayTol * 86400 ≤ s.startTime ∧
        s.startTime ≤ o.StopTime + dayTol * 86400 ∧
        o.StartTime - dayTol * 86400 ≤ s.stopTime ∧
        s.stopTime ≤ o.StopTime + dayTol * 86400) := by
  simp only [calendarCandidates, List.mem_filter, calendarOk, Bool.and_eq_true,
    decide_eq_true_eq, Bool.not_eq_true', List.elem_eq_mem, decide_eq_false_iff_not]
  constructor
  · rintro ⟨⟨h1, h2, h3⟩, h4⟩
    exact ⟨h1, h4, h2, by omega, by omega, h3⟩
  · rintro ⟨h1, h4, h2, h5, h6, h3⟩
    exact ⟨⟨h1, h2, h3⟩, h4⟩

theorem calendar_filter_witness :
    ((⟨0, 0⟩ : Slot).startTime ≤ (⟨0, 0⟩ : Slot).stopTime) ∧
    (0, (⟨0, 0⟩ : Slot)) ∈ calendarCandidates [⟨0, 0⟩] [] 3 ⟨0, 0⟩ :=
  ⟨by decide,
   (calendar_filter [⟨0, 0⟩] [] 3 ⟨0, 0⟩ 0 ⟨0, 0⟩ (by decide)).mpr (by decide)⟩

/-- C4. Time-of-day filter with inclusive boundary and OR combination: a
calendar candidate survives the second filter exactly when the
time-of-day gap (hour-and-minute components only, in minutes) between the
start edges, or the one between the stop edges, is at most
`hour_tolerance` hours. -/
theorem tod_filter (slots : List Slot) (used : List Nat) (hourTol dayTol : Nat)
    (o : Observation) (i : Nat) (s : Slot) :
    (i, s) ∈ filteredCandidates slots used hourTol dayTol o ↔
      ((i, s) ∈ calendarCandidates slots used dayTol o ∧
        (((hour o.StartTime * 60 + minute o.StartTime) -
            (hour s.startTime * 60 + minute s.startTime)).natAbs ≤ hourTol * 60 ∨
         ((hour o.StopTime * 60 + minute o.StopTime) -
            (hour s.stopTime * 60 + minute s.stopTime)).natAbs ≤ hourTol * 60)) := by
  simp only [filteredCandidates, List.mem_filter, hourOk, todSeconds, Bool.or_eq_true,
    decide_eq_true_eq]
  refine and_congr_right fun _ => ?_
  constructor
  · rintro (h | h)
    · left; omega
    · right; omega
  · rintro (h | h)
    · left; omega
    · right; omega

lemma replaceHM_spec (t h m : Int) (hh : 0 ≤ h) (hh2 : h < 24) (hm : 0 ≤ m) (hm2 : m < 60) :
    hour (replaceHM t h m) = h ∧ minute (replaceHM t h m) = m ∧
    dayStart (replaceHM t h m) = dayStart t := by
  unfold hour minute dayStart replaceHM dayStart
  omega

lemma hour_bounds (t : Int) : 0 ≤ hour t ∧ hour t < 24 := by
  unfold hour; omega

lemma minute_bounds (t : Int) : 0 ≤ minute t ∧ minute t < 60 := by
  unfold minute; omega

lemma dayStart_add_day (t : Int) : dayStart (t + 86400) = dayStart t + 86400 := by
  unfold dayStart; omega

/-- C7. Candidate window construction with midnight rollover: the candidate
actual start keeps the slot's start date (and its seconds) and carries the
plan's start hour and minute; the candidate actual end carries the plan's
end hour and minute, and its date is the slot start date plus one day
exactly when the plan's end hour is strictly below the plan's start hour or
is 0 while the plan's start hour is not, and the slot start date itself
otherwise. -/
theorem candidate_window (obsStart obsStop slotStart : Int) :
    hour (candidateStart obsStart slotStart) = hour obsStart ∧
    minute (candidateStart obsStart slotStart) = minute obsStart ∧
    dayStart (candidateStart obsStart slotStart) = dayStart slotStart ∧
    hour (candidateEnd obsStart obsStop slotStart) = hour obsStop ∧
    minute (candidateEnd obsStart obsStop slotStart) = minute obsStop ∧
    dayStart (candidateEnd obsStart obsStop slotStart) =
      (if hour obsStop < hour obsStart ∨ (hour obsStop = 0 ∧ hour obsStart ≠ 0)
       then dayStart slotStart + 86400
       else dayStart slotStart) := by
  have hsb := hour_bounds obsStart
  have msb := minute_bounds obsStart
  have heb := hour_bounds obsStop
  have meb := minute_bounds obsStop
  have hstart := replaceHM_spec slotStart (hour obsStart) (minute obsStart)
    hsb.1 hsb.2 msb.1 msb.2
  have hend1 := replaceHM_spec (slotStart + 86400) (hour obsStop) (minute obsStop)
    heb.1 heb.2 meb.1 meb.2
  have hend0 := replaceHM_spec slotStart (hour obsStop) (minute obsStop)
    heb.1 heb.2 meb.1 meb.2
  by_cases hro : hour obsStop < hour obsStart ∨ (hour obsStop = 0 ∧ hour obsStart ≠ 0)
  · have hb : rolloverB obsStart obsStop = true := by
      simp only [rolloverB, Bool.or_eq_true, Bool.and_eq_true, decide_eq_true_eq]
      tauto
    refine ⟨hstart.1, hstart.2.1, hstart.2.2, ?_, ?_, ?_⟩
    · rw [candidateEnd, if_pos hb]
      exact hend1.1
    · rw [candidateEnd, if_pos hb]
      exact hend1.2.1
    · rw [candidateEnd, if_pos hb, if_pos hro, hend1.2.2, dayStart_add_day]
  · have hb : rolloverB obsStart obsStop = false := by
      simp only [rolloverB, Bool.or_eq_false_iff, Bool.and_eq_false_iff,
        decide_eq_false_iff_not]
      rw [not_or] at hro
      refine ⟨hro.1, ?_⟩
      by_cases h0 : hour obsStop = 0
      · exact Or.inr fun hne => hro.2 ⟨h0, hne⟩
      · exact Or.inl h0
    refine ⟨hstart.1, hstart.2.1, hstart.2.2, ?_, ?_, ?_⟩
    · rw [candidateEnd, if_neg (by rw [hb]; exact Bool.false_ne_true)]
      exact hend0.1
    · rw [candidateEnd, if_neg (by rw [hb]; exact Bool.false_ne_true)]
      exact hend0.2.1
    · rw [candidateEnd, if_neg (by rw [hb]; exact Bool.false_ne_true), if_neg hro,
        hend0.2.2]

/-- C8. Clamping and degenerate-window nulling: for a matched record the
actual fields are `max(candidate start, slot startTime)` and
`min(candidate end, slot stopTime)` whenever that clamped start is strictly
before the clamped end, both null otherwise, and a non-null emitted window
always lies within the slot's bounds. -/
theorem clamping (o : Observation) (i : Nat) (s : Slot) :
    (max (candidateStart o.StartTime s.startTime) s.startTime <
        min (candidateEnd o.StartTime o.StopTime s.startTime) s.stopTime →
      adjustFields ⟨o, some i, some s⟩ =
        (some (max (candidateStart o.StartTime s.startTime) s.startTime),
         some (min (candidateEnd o.StartTime o.StopTime s.startTime) s.stopTime))) ∧
    (min (candidateEnd o.StartTime o.StopTime s.startTime) s.stopTime ≤
        max (candidateStart o.StartTime s.startTime) s.startTime →
      adjustFields ⟨o, some i, some s⟩ = (none, none)) ∧
    ∀ a b : Int, adjustFields ⟨o, some i, some s⟩ = (some a, some b) →
      s.startTime ≤ a ∧ b ≤ s.stopTime ∧ a < b := by
  refine ⟨?_, ?_, ?_⟩
  · intro hlt
    simp [adjustFields, hlt]
  · intro hge
    simp [adjustFields, not_lt.mpr hge]
  · intro a b hab
    by_cases hlt : max (candidateStart o.StartTime s.startTime) s.startTime <
        min (candidateEnd o.StartTime o.StopTime s.startTime) s.stopTime
    · simp only [adjustFields, if_pos hlt, Prod.mk.injEq, Option.some.injEq] at hab
      obtain ⟨ha, hb⟩ := hab
      subst ha
      subst hb
      exact ⟨le_max_right _ _, min_le_right _ _, hlt⟩
    · simp [adjustFields, hlt] at hab

theorem clamping_witness :
    adjustFields ⟨⟨79200, 93600⟩, some 0, some ⟨77400, 97200⟩⟩ =
      (some 79200, some 93600) ∧
    ((77400 : Int) ≤ 79200 ∧ (93600 : Int) ≤ 97200 ∧ (79200 : Int) < 93600) :=
  ⟨by decide,
   (clamping ⟨79200, 93600⟩ 0 ⟨77400, 97200⟩).2.2 79200 93600 (by decide)⟩

/-- C10. Shared column names between the two input tables: when a slot
column name is also a plan column name, a matched record carries the
slot's value for it (`dict.update` overwrites in place), while an
unmatched record keeps the plan's value (only columns absent from the
record are added, as null). -/
theorem shared_columns {α : Type} (obsRow slotRow : List (String × Option α))
    (slotCols : List String) (c : String) (v w : Option α)
    (h1 : obsRow.lookup c = some v) (h2 : slotRow.lookup c = some w) :
    (dictUpdate obsRow slotRow).lookup c = some w ∧
    (unmatchedRow obsRow slotCols).lookup c = some v := by
  constructor
  · exact lookup_append_left _ _ _ _
      (lookup_map_update obsRow slotRow c w (by rw [h1]; rfl) h2)
  · exact lookup_append_left _ _ _ _ h1

theorem shared_columns_witness :
    (dictUpdate [("proj", (some 1 : Option Int))] [("proj", some 2)]).lookup ("proj") =
      some (some 2) ∧
    (unmatchedRow [("proj", (some 1 : Option Int))] ["proj", "startTime"]).lookup ("proj") =
      some (some 1) :=
  shared_columns [("proj", some 1)] [("proj", some 2)] ["proj", "startTime"] "proj"
    (some 1) (some 2) (by decide) (by decide)

end MatchSlots
